import Mathlib

/-!
Verification of the runtime-memory-manipulation workflow
(`ContextualLLMChat` notebook) and of the spec's token-budgeted memory
manager.

The first part embeds the notebook's own code: `_path_to_block_name`,
the `update_memory_context` step (adding pinned file blocks, removing
them by sanitized name), and the data it manipulates.  File contents are
supplied by an abstract file system `fs : String → String`, since the
core never performs I/O itself.

The second part models, from the spec, the parts of the `Memory` class
that the notebook only calls (the library implementation is not part of
this repository): the token-budgeted session queue with its flush pass,
and the pure `read()` projection that assembles blocks plus queue.
-/

/-- One content part of a pinned block: an image referenced by path
(`ImageBlock(path=...)`) or loaded text (`f.read()`). -/
inductive BlockContent where
  | image (path : String)
  | text (s : String)
deriving DecidableEq, Repr

/-- A block's payload.  `static` is the notebook's `StaticMemoryBlock`
content.  `dynamic` is modelled from the spec: a block whose `read`
delegates to an external capability, so its content may vary between
calls (indexed here by an abstract world/time `Nat`). -/
inductive BlockKind where
  | static (c : BlockContent)
  | dynamic (f : Nat → BlockContent)

/-- A named memory block held by the manager. -/
structure MemBlock where
  name : String
  kind : BlockKind

/-- Whether a block payload is static. -/
def isStaticBlock : BlockKind → Bool
  | .static _ => true
  | .dynamic _ => false

/-- ASCII word character, as matched by the regex class `\w`. -/
def isWordChar (c : Char) : Bool :=
  c.isAlphanum || c == '_'

/-- Embeds `_path_to_block_name`: `re.sub(r"[^\w-]", "_", file_path)` —
every character that is not a word character or a hyphen becomes an
underscore. -/
def pathToBlockName (p : String) : String :=
  String.mk (p.toList.map (fun c => if isWordChar c || c == '-' then c else '_'))

/-- The content kind `update_memory_context` derives from a path's
extension: image for `.png/.jpg/.jpeg`, text for `.txt/.md/.py/.ipynb`,
otherwise unsupported (raises `ValueError`). -/
inductive ContentKind where
  | image
  | text
  | unsupported
deriving DecidableEq, Repr

/-- `str.endswith(pat)` over the underlying character sequence. -/
def strEndsWith (s pat : String) : Bool :=
  pat.toList.isSuffixOf s.toList

/-- Extension dispatch of the add loop in `update_memory_context`. -/
def contentKind (p : String) : ContentKind :=
  if strEndsWith p ".png" || strEndsWith p ".jpg" || strEndsWith p ".jpeg" then .image
  else if strEndsWith p ".txt" || strEndsWith p ".md" || strEndsWith p ".py"
      || strEndsWith p ".ipynb" then .text
  else .unsupported

/-- Embeds the first loop of `update_memory_context`.  `names0` is
`current_block_names`, computed once at step entry; the guard compares
the RAW path against it, exactly as the source does.  A supported path
appends a `StaticMemoryBlock`; an unsupported one raises `ValueError`,
leaving the blocks appended so far in place (the second component
carries the error message). -/
def addBlocks (fs : String → String) (names0 : List String) :
    List MemBlock → List String → List MemBlock × Option String
  | blocks, [] => (blocks, none)
  | blocks, p :: rest =>
    if p ∈ names0 then addBlocks fs names0 blocks rest
    else
      match contentKind p with
      | .image => addBlocks fs names0 (blocks ++ [⟨pathToBlockName p, .static (.image p)⟩]) rest
      | .text => addBlocks fs names0 (blocks ++ [⟨pathToBlockName p, .static (.text (fs p))⟩]) rest
      | .unsupported => (blocks, some ("Unsupported file: " ++ p))

/-- Embeds the second loop of `update_memory_context`: each removed path
is sanitized and every block carrying that name is filtered out. -/
def removeBlocks : List MemBlock → List String → List MemBlock
  | blocks, [] => blocks
  | blocks, p :: rest =>
    removeBlocks (blocks.filter (fun b => b.name != pathToBlockName p)) rest

/-- Embeds the `update_memory_context` step: process all additions, then
all removals.  If an addition raises, the step aborts with the partially
extended block list and the removals never run. -/
def updateMemoryContext (fs : String → String) (blocks : List MemBlock)
    (newPaths removedPaths : List String) : List MemBlock × Option String :=
  match addBlocks fs (blocks.map (·.name)) blocks newPaths with
  | (blocks1, some e) => (blocks1, some e)
  | (blocks1, none) => (removeBlocks blocks1 removedPaths, none)

/-- A conversation turn as the notebook's `ChatMessage(role=..., content=...)`. -/
structure ChatMessage where
  role : String
  content : String
deriving DecidableEq, Repr

/-- Materialize a block's content at an abstract world/time. -/
def renderBlock (world : Nat) : BlockKind → BlockContent
  | .static c => c
  | .dynamic f => f world

/-- The manager's stored state: its block list and the live session queue. -/
structure MemoryState where
  blocks : List MemBlock
  queue : List ChatMessage

/-- Modelled from the spec: `Memory.aget` (the `read()` projection, not
part of this repository) renders all blocks in order followed by the
remaining queue in chronological order. -/
def assembleContext (world : Nat) (s : MemoryState) :
    List BlockContent × List ChatMessage :=
  (s.blocks.map (fun b => renderBlock world b.kind), s.queue)

/-- Modelled from the spec: `read()` is a pure projection with no side
effects on stored state; it returns the assembled context together with
the (unchanged) stored state. -/
def readCtx (world : Nat) (s : MemoryState) :
    (List BlockContent × List ChatMessage) × MemoryState :=
  (assembleContext world s, s)

/-- Configuration of the memory manager, as in `Memory.from_defaults`:
a hard token limit for the live queue and the chat-history token ratio,
kept as the exact rational `ratioNum / ratioDen` (the notebook's
`chat_history_token_ratio=0.7` is `⟨7, 10⟩`). -/
structure MemoryConfig where
  tokenLimit : Nat
  ratioNum : Nat
  ratioDen : Nat

/-- Total estimated token count of a queue; a turn is represented by its
estimated token count. -/
def queueTokens (q : List Nat) : Nat := q.sum

/-- Whether the queue is within the flush target
`tokenLimit * (ratioNum / ratioDen)`, stated by cross-multiplication:
`tokens * ratioDen ≤ ratioNum * tokenLimit`. -/
def withinTarget (cfg : MemoryConfig) (q : List Nat) : Bool :=
  queueTokens q * cfg.ratioDen ≤ cfg.ratioNum * cfg.tokenLimit

/-- Modelled from the spec: the eviction loop of a flush pass removes
turns from the head of the queue, oldest first, until the queue no
longer exceeds the target `tokenLimit * chatHistoryRatio` (`Memory`'s
queue management itself is not part of this repository). -/
def evict (cfg : MemoryConfig) : List Nat → List Nat
  | [] => []
  | t :: rest =>
    if withinTarget cfg (t :: rest) then t :: rest
    else evict cfg rest

/-- Number of turns the eviction loop removes. -/
def evictCount (cfg : MemoryConfig) : List Nat → Nat
  | [] => 0
  | t :: rest =>
    if withinTarget cfg (t :: rest) then 0
    else evictCount cfg rest + 1

/-- Modelled from the spec: a flush pass runs only when the queue
exceeds `tokenLimit`, and then evicts down to the target. -/
def flush (cfg : MemoryConfig) (q : List Nat) : List Nat :=
  if queueTokens q ≤ cfg.tokenLimit then q else evict cfg q

/-- Modelled from the spec: appending a sequence of turns, letting the
flush pass settle after every append. -/
def settle (cfg : MemoryConfig) (turns : List Nat) : List Nat :=
  turns.foldl (fun q t => flush cfg (q ++ [t])) []

/-- The eviction loop written as a fuel-bounded while loop: each
iteration tests the target and otherwise removes the head; `none` means
the fuel ran out before the loop finished. -/
def flushSteps (cfg : MemoryConfig) : Nat → List Nat → Option (List Nat)
  | 0, q =>
    if withinTarget cfg q then some q else none
  | fuel + 1, q =>
    if withinTarget cfg q then some q
    else flushSteps cfg fuel q.tail

example : pathToBlockName "./a.txt" = "__a_txt" := by decide
example : evict ⟨1000, 7, 10⟩ [600, 600, 800] = [] := by decide
example : flushSteps ⟨1000, 7, 10⟩ 1 [5000] = some [] := by decide
example : queueTokens (settle ⟨1000, 7, 10⟩ [600, 600, 800]) = 0 := by decide
example :
    (((updateMemoryContext (fun _ => "x")
        (updateMemoryContext (fun _ => "x") [] ["./a.txt"] []).1 ["./a.txt"] []).1).map
      (fun b => b.name)) = ["__a_txt", "__a_txt"] := by decide

theorem withinTarget_nil (cfg : MemoryConfig) : withinTarget cfg [] = true := by
  simp [withinTarget, queueTokens]

theorem evict_within (cfg : MemoryConfig) :
    ∀ q : List Nat, withinTarget cfg (evict cfg q) = true := by
  intro q
  induction q with
  | nil => simpa [evict] using withinTarget_nil cfg
  | cons t rest ih =>
    rw [evict]
    split
    · assumption
    · exact ih

theorem evict_eq_drop (cfg : MemoryConfig) :
    ∀ q : List Nat, evict cfg q = q.drop (evictCount cfg q) := by
  intro q
  induction q with
  | nil => simp [evict, evictCount]
  | cons t rest ih =>
    rw [evict, evictCount]
    split
    · simp
    · simpa using ih

theorem withinTarget_le_limit (cfg : MemoryConfig) (hnum : cfg.ratioNum ≤ cfg.ratioDen)
    (hden : 0 < cfg.ratioDen) (q : List Nat) (hq : withinTarget cfg q = true) :
    queueTokens q ≤ cfg.tokenLimit := by
  have h1 : queueTokens q * cfg.ratioDen ≤ cfg.ratioNum * cfg.tokenLimit := by
    simpa [withinTarget] using hq
  have h2 : cfg.ratioNum * cfg.tokenLimit ≤ cfg.ratioDen * cfg.tokenLimit :=
    Nat.mul_le_mul_right _ hnum
  have h3 : queueTokens q * cfg.ratioDen ≤ cfg.tokenLimit * cfg.ratioDen := by
    calc queueTokens q * cfg.ratioDen ≤ cfg.ratioNum * cfg.tokenLimit := h1
      _ ≤ cfg.ratioDen * cfg.tokenLimit := h2
      _ = cfg.tokenLimit * cfg.ratioDen := Nat.mul_comm _ _
  exact Nat.le_of_mul_le_mul_right h3 hden

theorem flush_le_limit (cfg : MemoryConfig) (hnum : cfg.ratioNum ≤ cfg.ratioDen)
    (hden : 0 < cfg.ratioDen) (q : List Nat) :
    queueTokens (flush cfg q) ≤ cfg.tokenLimit := by
  rw [flush]
  split
  · assumption
  · exact withinTarget_le_limit cfg hnum hden _ (evict_within cfg q)

/-- C1: for every sequence of appended turns, after the flush pass
settles, the estimated token count of the live session queue is at most
the configured `tokenLimit` (single turns not exceeding the limit, the
forced-drop edge case being excluded by hypothesis). -/
theorem settle_le_tokenLimit (cfg : MemoryConfig) (hnum : cfg.ratioNum ≤ cfg.ratioDen)
    (hden : 0 < cfg.ratioDen) (turns : List Nat)
    (hsingle : ∀ t ∈ turns, t ≤ cfg.tokenLimit) :
    queueTokens (settle cfg turns) ≤ cfg.tokenLimit := by
  have key : ∀ (l : List Nat) (q : List Nat), queueTokens q ≤ cfg.tokenLimit →
      queueTokens (l.foldl (fun q t => flush cfg (q ++ [t])) q) ≤ cfg.tokenLimit := by
    intro l
    induction l with
    | nil => intro q hq; simpa using hq
    | cons t rest ih =>
      intro q hq
      simpa using ih _ (flush_le_limit cfg hnum hden (q ++ [t]))
  simpa [settle] using key turns [] (by simp [queueTokens])

/-- C1 witness. -/
theorem settle_le_tokenLimit_witness :
    queueTokens (settle ⟨1000, 7, 10⟩ [600, 600, 800]) ≤ 1000 :=
  settle_le_tokenLimit ⟨1000, 7, 10⟩ (by decide) (by decide) [600, 600, 800] (by decide)

/-- C5: the flush pass, run as a fuel-bounded while loop, finishes
within queue-length iterations on every queue state — including one
whose single oldest turn alone exceeds the entire token budget, which is
forcibly removed rather than looped on — and computes the eviction
result. -/
theorem flushSteps_terminates (cfg : MemoryConfig) (q : List Nat) :
    flushSteps cfg q.length q = some (evict cfg q) := by
  induction q with
  | nil => simp [flushSteps, evict, withinTarget_nil]
  | cons t rest ih =>
    show flushSteps cfg (rest.length + 1) (t :: rest) = some (evict cfg (t :: rest))
    rw [flushSteps, evict]
    split
    · rfl
    · simpa using ih

theorem evict_minimal (cfg : MemoryConfig) :
    ∀ q : List Nat, 0 < evictCount cfg q →
      withinTarget cfg (q.drop (evictCount cfg q - 1)) = false := by
  intro q
  induction q with
  | nil => intro h; simp [evictCount] at h
  | cons t rest ih =>
    intro h
    rw [evictCount] at h ⊢
    by_cases hw : withinTarget cfg (t :: rest) = true
    · simp [hw] at h
    · rw [Bool.not_eq_true] at hw
      simp only [hw, if_false, Nat.add_sub_cancel]
      cases hc : evictCount cfg rest with
      | zero => simpa [hc] using hw
      | succ m =>
        have := ih (by omega)
        rw [hc] at this
        simpa [hc] using this

/-- C4 counterexample: a queue at exactly twice the token limit can
flush to strictly below `chatHistoryRatio * tokenLimit` (here to the
empty queue), so the flushed size need not lie in
`[chatHistoryRatio * tokenLimit, tokenLimit]`. -/
theorem flush_undershoots_target :
    queueTokens [600, 600, 800] = 2 * 1000 ∧
    flush ⟨1000, 7, 10⟩ [600, 600, 800] = [] ∧
    queueTokens (flush ⟨1000, 7, 10⟩ [600, 600, 800]) * 10 < 7 * 1000 := by
  decide

/-- C4 amended: one flush of a queue at twice the token limit removes
the minimal number of oldest turns needed to reach the target
`chatHistoryRatio * tokenLimit`: the result is within the target (hence
at most `tokenLimit`), and removing one turn fewer would leave the queue
above the target; the result can, however, land strictly below the
target when the last removed turn is large. -/
theorem flush_minimal_eviction (cfg : MemoryConfig) (q : List Nat)
    (hnum : cfg.ratioNum ≤ cfg.ratioDen) (hden : 0 < cfg.ratioDen)
    (hover : queueTokens q = 2 * cfg.tokenLimit) (hpos : 0 < cfg.tokenLimit) :
    flush cfg q = q.drop (evictCount cfg q) ∧
    withinTarget cfg (q.drop (evictCount cfg q)) = true ∧
    queueTokens (q.drop (evictCount cfg q)) ≤ cfg.tokenLimit ∧
    (0 < evictCount cfg q →
      withinTarget cfg (q.drop (evictCount cfg q - 1)) = false) := by
  have hflush : flush cfg q = evict cfg q := by
    rw [flush, if_neg]
    omega
  have hdrop := evict_eq_drop cfg q
  refine ⟨hflush.trans hdrop, ?_, ?_, evict_minimal cfg q⟩
  · rw [← hdrop]; exact evict_within cfg q
  · rw [← hdrop]
    exact withinTarget_le_limit cfg hnum hden _ (evict_within cfg q)

/-- C4 witness for the amended claim. -/
theorem flush_minimal_eviction_witness :
    flush ⟨1000, 7, 10⟩ [600, 600, 800] = [] ∧
    withinTarget ⟨1000, 7, 10⟩ [] = true ∧
    queueTokens ([] : List Nat) ≤ 1000 ∧
    withinTarget ⟨1000, 7, 10⟩ [800] = false := by
  have h := flush_minimal_eviction ⟨1000, 7, 10⟩ [600, 600, 800]
    (by decide) (by decide) (by decide) (by decide)
  exact ⟨h.1, h.2.1, h.2.2.1, h.2.2.2 (by decide)⟩

/-- C2: the dedup guard of `update_memory_context` compares the raw file
path against the sanitized block names, so it never fires for a
supported file; re-pinning `./a.txt` appends a second block also named
`__a_txt`, breaking name uniqueness. -/
theorem repin_duplicates_block_name :
    (((updateMemoryContext (fun _ => "x")
        (updateMemoryContext (fun _ => "x") [] ["./a.txt"] []).1 ["./a.txt"] []).1).map
      (fun b => b.name)) = ["__a_txt", "__a_txt"] ∧
    ¬ (((updateMemoryContext (fun _ => "x")
        (updateMemoryContext (fun _ => "x") [] ["./a.txt"] []).1 ["./a.txt"] []).1).map
      (fun b => b.name)).Nodup := by
  decide

/-- C3 counterexample: a request pinning a supported file followed by an
unsupported one fails, yet the block list is no longer what it was
before the request — the supported file's block was already appended. -/
theorem unsupported_pin_mutates_state :
    (updateMemoryContext (fun _ => "x") [] ["a.txt", "b.pdf"] []).2
      = some ("Unsupported file: " ++ "b.pdf") ∧
    ((updateMemoryContext (fun _ => "x") [] ["a.txt", "b.pdf"] []).1).map (fun b => b.name)
      = ["a_txt"] := by
  decide

theorem addBlocks_stops_at_unsupported (fs : String → String) (names0 : List String)
    (post : List String) (p : String) (hp : contentKind p = ContentKind.unsupported)
    (hp0 : p ∉ names0) :
    ∀ (pre : List String) (blocks : List MemBlock),
      (∀ q ∈ pre, q ∈ names0 ∨ contentKind q ≠ ContentKind.unsupported) →
      addBlocks fs names0 blocks (pre ++ p :: post)
        = ((addBlocks fs names0 blocks pre).1, some ("Unsupported file: " ++ p)) := by
  intro pre
  induction pre with
  | nil =>
    intro blocks _
    simp [addBlocks, hp0, hp]
  | cons q pre ih =>
    intro blocks hpre
    have hq := hpre q (List.mem_cons_self q pre)
    have hrest : ∀ r ∈ pre, r ∈ names0 ∨ contentKind r ≠ ContentKind.unsupported :=
      fun r hr => hpre r (List.mem_cons_of_mem q hr)
    by_cases hmem : q ∈ names0
    · simp only [List.cons_append, addBlocks, if_pos hmem]
      exact ih blocks hrest
    · have hk' : contentKind q ≠ ContentKind.unsupported := hq.resolve_left hmem
      cases hk : contentKind q with
      | unsupported => exact absurd hk hk'
      | image =>
        simp only [List.cons_append, addBlocks, if_neg hmem, hk]
        exact ih _ hrest
      | text =>
        simp only [List.cons_append, addBlocks, if_neg hmem, hk]
        exact ih _ hrest

/-- C3 amended: pinning an unsupported file makes the context-update
request fail at that file, but not atomically: blocks added for
supported files earlier in the same request remain, while later
additions and all removals of the request are skipped.  Only when the
unsupported file comes first is the prior state fully preserved. -/
theorem unsupported_pin_fails_at_offender (fs : String → String) (blocks : List MemBlock)
    (removed : List String) (pre post : List String) (p : String)
    (hpre : ∀ q ∈ pre, q ∈ blocks.map (·.name) ∨ contentKind q ≠ ContentKind.unsupported)
    (hp : contentKind p = ContentKind.unsupported)
    (hp0 : p ∉ blocks.map (·.name)) :
    updateMemoryContext fs blocks (pre ++ p :: post) removed
      = ((addBlocks fs (blocks.map (·.name)) blocks pre).1,
          some ("Unsupported file: " ++ p)) := by
  rw [updateMemoryContext,
    addBlocks_stops_at_unsupported fs (blocks.map (·.name)) post p hp hp0 pre blocks hpre]

/-- C3 witness for the amended claim. -/
theorem unsupported_pin_fails_at_offender_witness :
    updateMemoryContext (fun _ => "x") [] (["a.txt"] ++ "b.pdf" :: []) ["c.txt"]
      = ((addBlocks (fun _ => "x") [] [] ["a.txt"]).1,
          some ("Unsupported file: " ++ "b.pdf")) :=
  unsupported_pin_fails_at_offender (fun _ => "x") [] ["c.txt"] ["a.txt"] [] "b.pdf"
    (by decide) (by decide) (by decide)

theorem removeBlocks_eq_filter :
    ∀ (l : List String) (blocks : List MemBlock),
      removeBlocks blocks l
        = blocks.filter (fun b => l.all (fun p => b.name != pathToBlockName p)) := by
  intro l
  induction l with
  | nil => intro blocks; simp [removeBlocks]
  | cons p rest ih =>
    intro blocks
    rw [removeBlocks, ih, List.filter_filter]
    apply List.filter_congr
    intro b _
    simp [List.all_cons, Bool.and_comm]

/-- C6: removing a block by a name that is not present is a no-op — the
block list is unchanged and no error is raised — and repeating the same
removal gives the same result. -/
theorem remove_absent_block_noop (fs : String → String) (blocks : List MemBlock) (p : String)
    (h : pathToBlockName p ∉ blocks.map (·.name)) :
    updateMemoryContext fs blocks [] [p] = (blocks, none) ∧
    updateMemoryContext fs (updateMemoryContext fs blocks [] [p]).1 [] [p]
      = (blocks, none) := by
  have hfilter : blocks.filter (fun b => b.name != pathToBlockName p) = blocks := by
    apply List.filter_eq_self.mpr
    intro b hb
    have hne : b.name ≠ pathToBlockName p :=
      fun he => h (he ▸ List.mem_map_of_mem (·.name) hb)
    simpa using bne_iff_ne.mpr hne
  have h1 : updateMemoryContext fs blocks [] [p] = (blocks, none) := by
    simp [updateMemoryContext, addBlocks, removeBlocks, hfilter]
  refine ⟨h1, ?_⟩
  rw [h1]
  exact h1

/-- C6 witness. -/
theorem remove_absent_block_noop_witness :
    updateMemoryContext (fun _ => "") [⟨"x_txt", .static (.text "hi")⟩] [] ["y.txt"]
      = ([⟨"x_txt", .static (.text "hi")⟩], none) ∧
    updateMemoryContext (fun _ => "")
        (updateMemoryContext (fun _ => "")
          [⟨"x_txt", .static (.text "hi")⟩] [] ["y.txt"]).1 [] ["y.txt"]
      = ([⟨"x_txt", .static (.text "hi")⟩], none) :=
  remove_absent_block_noop (fun _ => "")
    [⟨"x_txt", BlockKind.static (BlockContent.text "hi")⟩] "y.txt" (by decide)

/-- C7: pinning `file_a.txt`, then `file_b.txt`, then unpinning
`file_a.txt` leaves an assembled context that contains `file_b.txt`'s
content and not `file_a.txt`'s. -/
theorem pin_pin_unpin_scenario :
    BlockContent.text "file_b.txt" ∈
      (assembleContext 0 ⟨(updateMemoryContext (fun s => s)
          (updateMemoryContext (fun s => s)
            (updateMemoryContext (fun s => s) [] ["file_a.txt"] []).1
            ["file_b.txt"] []).1
          [] ["file_a.txt"]).1, []⟩).1 ∧
    BlockContent.text "file_a.txt" ∉
      (assembleContext 0 ⟨(updateMemoryContext (fun s => s)
          (updateMemoryContext (fun s => s)
            (updateMemoryContext (fun s => s) [] ["file_a.txt"] []).1
            ["file_b.txt"] []).1
          [] ["file_a.txt"]).1, []⟩).1 := by
  decide

/-- C8: with static-only blocks, two `read()` calls with no intervening
write return identical assembled contexts, and neither call changes the
stored state. -/
theorem read_static_deterministic (s : MemoryState) (w1 w2 : Nat)
    (h : ∀ b ∈ s.blocks, isStaticBlock b.kind = true) :
    (readCtx w1 s).1 = (readCtx w2 s).1 ∧
    (readCtx w1 s).2 = s ∧ (readCtx w2 s).2 = s := by
  refine ⟨?_, rfl, rfl⟩
  simp only [readCtx, assembleContext, Prod.mk.injEq, and_true]
  apply List.map_congr_left
  intro b hb
  have hs := h b hb
  cases hk : b.kind with
  | static c => simp [renderBlock, hk]
  | dynamic f => rw [hk] at hs; simp [isStaticBlock] at hs

/-- C8 witness. -/
theorem read_static_deterministic_witness :
    (readCtx 0 ⟨[⟨"notes_txt", .static (.text "hi")⟩], [⟨"user", "hello"⟩]⟩).1
      = (readCtx 1 ⟨[⟨"notes_txt", .static (.text "hi")⟩], [⟨"user", "hello"⟩]⟩).1 ∧
    (readCtx 0 ⟨[⟨"notes_txt", .static (.text "hi")⟩], [⟨"user", "hello"⟩]⟩).2
      = ⟨[⟨"notes_txt", .static (.text "hi")⟩], [⟨"user", "hello"⟩]⟩ ∧
    (readCtx 1 ⟨[⟨"notes_txt", .static (.text "hi")⟩], [⟨"user", "hello"⟩]⟩).2
      = ⟨[⟨"notes_txt", .static (.text "hi")⟩], [⟨"user", "hello"⟩]⟩ :=
  read_static_deterministic _ 0 1 (by decide)

/-- C9: block names replace every character that is not a word character
or a hyphen by an underscore, so the distinct paths `./a.txt` and
`__a_txt` map to the same block name; unpinning a path removes every
block whose name matches its sanitized form, so unpinning `__a_txt`
also removes the block pinned under `./a.txt`. -/
theorem sanitized_name_collision :
    pathToBlockName "./a.txt" = "__a_txt" ∧
    pathToBlockName "__a_txt" = "__a_txt" ∧
    ("./a.txt" : String) ≠ "__a_txt" ∧
    (∀ (blocks : List MemBlock) (p : String),
      (removeBlocks blocks [p]).filter (fun b => b.name == pathToBlockName p) = []) ∧
    ((updateMemoryContext (fun s => s)
        (updateMemoryContext (fun s => s) [] ["./a.txt"] []).1 [] ["__a_txt"]).1).map
      (fun b => b.name) = [] := by
  refine ⟨by decide, by decide, by decide, ?_, by decide⟩
  intro blocks p
  rw [removeBlocks_eq_filter, List.filter_filter]
  apply List.filter_eq_nil_iff.mpr
  intro b _
  by_cases hb : b.name = pathToBlockName p
  · simp [List.all_cons, hb]
  · simp [hb]

/-- C10: within one context-update request all additions run before all
removals, so a path that appears in both the new-file list and the
removed-file list of a completed request leaves no block with its
sanitized name in the manager. -/
theorem add_then_remove_same_path (fs : String → String) (blocks : List MemBlock)
    (newPaths removedPaths : List String) (p : String)
    (hnew : p ∈ newPaths) (hrem : p ∈ removedPaths)
    (hok : (updateMemoryContext fs blocks newPaths removedPaths).2 = none) :
    ((updateMemoryContext fs blocks newPaths removedPaths).1).filter
      (fun b => b.name == pathToBlockName p) = [] := by
  rcases hadd : addBlocks fs (blocks.map (·.name)) blocks newPaths with ⟨b1, e⟩
  cases e with
  | some err =>
    rw [updateMemoryContext, hadd] at hok
    simp at hok
  | none =>
    rw [updateMemoryContext, hadd]
    simp only
    rw [removeBlocks_eq_filter, List.filter_filter]
    apply List.filter_eq_nil_iff.mpr
    intro b _
    by_cases hb : b.name = pathToBlockName p
    · have hall : removedPaths.all (fun q => b.name != pathToBlockName q) = false := by
        apply List.all_eq_false.mpr
        exact ⟨p, hrem, by simp [hb]⟩
      simp [hall]
    · simp [hb]

/-- C10 witness. -/
theorem add_then_remove_same_path_witness :
    ((updateMemoryContext (fun _ => "x") [] ["a.txt"] ["a.txt"]).1).filter
      (fun b => b.name == pathToBlockName "a.txt") = [] :=
  add_then_remove_same_path (fun _ => "x") [] ["a.txt"] ["a.txt"] "a.txt"
    (by decide) (by decide) (by decide)
